import Mathlib

/-!
Verification of the vsl mount-resolution and launch-configuration subsystem.

Shallow embedding conventions:
* Go strings are modelled as `List Char` (`GoStr`).
* Absolute directory paths are modelled as component lists (`AbsPath`), on
  which `filepath.Join(dir, ".git")` is `dir ++ [dotGit]` and `filepath.Dir`
  is `List.dropLast` (the walk in `git.FindRoot` terminates when the parent
  equals the directory, i.e. at the empty component list, which renders
  as `/`).
* Filesystem and external-tool effects (`os.Stat`, file reads, the home
  directory, the working directory, the UP tokenizer) are passed in as
  explicit environment values.
-/

namespace VSL

/-- A Go string, as a list of characters. -/
abbrev GoStr := List Char

/-- An absolute directory path, as its list of components below the root. -/
abbrev AbsPath := List GoStr

/-- The literal `~/`. -/
def tildeSlash : GoStr := "~/".data

/-- The literal `.git`. -/
def dotGit : GoStr := ".git".data

/-- The literal `/worktrees/`. -/
def wtSep : GoStr := "/worktrees/".data

/-- The literal `gitdir: ` (with trailing space), used by the HasPrefix check. -/
def gitdirSp : GoStr := "gitdir: ".data

/-- The literal `gitdir:` (no space), used by the TrimPrefix call. -/
def gitdirColon : GoStr := "gitdir:".data

/-- The literal `ro`. -/
def roStr : GoStr := "ro".data

/-- Index of the first occurrence of `sep` in `s` (Go `strings.Index`),
`none` when `sep` does not occur. -/
def firstMatchPos (sep : GoStr) : GoStr → Option Nat
  | [] => if sep.isPrefixOf ([] : GoStr) then some 0 else none
  | c :: cs =>
    if sep.isPrefixOf (c :: cs) then some 0
    else (firstMatchPos sep cs).map (· + 1)

/-- Go `strings.Contains s sub`. -/
def goContains (s sub : GoStr) : Bool := (firstMatchPos sub s).isSome

/-- Go `strings.Split s sep` for a non-empty separator: splits `s` around
each (leftmost-first, non-overlapping) occurrence of `sep`. -/
def splitOnGo (sep : GoStr) : GoStr → List GoStr
  | [] => [[]]
  | c :: cs =>
    if h : sep ≠ [] ∧ sep.isPrefixOf (c :: cs) then
      [] :: splitOnGo sep (List.drop sep.length (c :: cs))
    else
      match splitOnGo sep cs with
      | [] => [[c]]
      | f :: fs => (c :: f) :: fs
termination_by s => s.length
decreasing_by
  · have hs : 0 < sep.length := List.length_pos.mpr h.1
    simp only [List.length_drop, List.length_cons]
    omega
  · simp only [List.length_cons]
    omega

/-- Go `unicode.IsSpace`, restricted to the ASCII space characters. -/
def isSpaceGo (c : Char) : Bool :=
  c = ' ' ∨ c = '\t' ∨ c = '\n' ∨ c = '\x0b' ∨ c = '\x0c' ∨ c = '\r'

/-- Go `strings.TrimSpace`. -/
def trimGo (s : GoStr) : GoStr :=
  ((s.dropWhile isSpaceGo).reverse.dropWhile isSpaceGo).reverse

/-- Go `strings.TrimPrefix`. -/
def goTrimPrefix (s pre : GoStr) : GoStr :=
  if pre.isPrefixOf s then s.drop pre.length else s

/-- Go `filepath.IsAbs` (unix). -/
def goIsAbs (s : GoStr) : Bool := s.head? = some '/'

/-- Element processing of Go `path/filepath.Clean`: push the path elements
onto a stack, skipping empty and `.` elements and resolving `..`. -/
def cleanStack (rooted : Bool) : List GoStr → List GoStr → List GoStr
  | [], acc => acc.reverse
  | c :: cs, acc =>
    if c = [] ∨ c = ['.'] then cleanStack rooted cs acc
    else if c = ['.', '.'] then
      match acc with
      | [] => if rooted then cleanStack rooted cs [] else cleanStack rooted cs [c]
      | top :: rest =>
        if top = ['.', '.'] then cleanStack rooted cs (c :: acc)
        else cleanStack rooted cs rest
    else cleanStack rooted cs (c :: acc)

/-- Go `filepath.Clean` (unix, lexical). -/
def goClean (s : GoStr) : GoStr :=
  if s = [] then ['.']
  else
    let rooted := s.head? = some '/'
    let comps := cleanStack rooted (splitOnGo ['/'] s) []
    if comps = [] then (if rooted then ['/'] else ['.'])
    else (if rooted then ['/'] else []) ++ List.intercalate ['/'] comps

/-- Go `filepath.Join(a, b)`: empty elements are dropped, the rest joined
with `/` and cleaned. -/
def goJoin (a b : GoStr) : GoStr :=
  if a = [] then (if b = [] then [] else goClean b)
  else if b = [] then goClean a
  else goClean (a ++ '/' :: b)

/-- Rendering of a component path as an absolute path string:
`[] ↦ "/"`, `["a","b"] ↦ "/a/b"`. -/
def renderPath (p : AbsPath) : GoStr := '/' :: List.intercalate ['/'] p

/-! ### Lemmas about `splitOnGo` and `firstMatchPos` -/

theorem splitOnGo_ne_nil (sep s : GoStr) : splitOnGo sep s ≠ [] := by
  rw [splitOnGo.eq_def]
  split
  · simp
  · split
    · simp
    · split <;> simp

theorem splitOnGo_eq_singleton (sep : GoStr) :
    ∀ s t : GoStr, splitOnGo sep s = [t] → t = s := by
  have main : ∀ n : Nat, ∀ s t : GoStr, s.length ≤ n → splitOnGo sep s = [t] → t = s := by
    intro n
    induction n with
    | zero =>
      intro s t hlen ht
      match s with
      | [] =>
        rw [splitOnGo.eq_def] at ht
        simpa using ht.symm
    | succ n ih =>
      intro s t hlen ht
      rw [splitOnGo.eq_def] at ht
      match s with
      | [] => simpa using ht.symm
      | c :: cs =>
        dsimp only at ht
        by_cases h : sep ≠ [] ∧ sep.isPrefixOf (c :: cs)
        · rw [dif_pos h] at ht
          have hne := splitOnGo_ne_nil sep (List.drop sep.length (c :: cs))
          simp at ht
          exact absurd ht.2 hne
        · rw [dif_neg h] at ht
          rcases hsplit : splitOnGo sep cs with _ | ⟨f, fs⟩
          · exact absurd hsplit (splitOnGo_ne_nil sep cs)
          · rw [hsplit] at ht
            simp at ht
            obtain ⟨rfl, hfs⟩ := ht
            have hf : f = cs := ih cs f (by simpa using hlen) (by rw [hsplit, hfs])
            rw [hf]
  intro s t
  exact main s.length s t (Nat.le_refl _)

theorem firstMatchPos_none_split (sep : GoStr) :
    ∀ s, firstMatchPos sep s = none → splitOnGo sep s = [s] := by
  intro s
  induction s with
  | nil => intro _; rw [splitOnGo.eq_def]
  | cons c cs ih =>
    intro h
    unfold firstMatchPos at h
    by_cases hp : sep.isPrefixOf (c :: cs)
    · rw [if_pos hp] at h
      exact absurd h (by simp)
    · rw [if_neg hp] at h
      have hcs : firstMatchPos sep cs = none := by
        rcases hfmp : firstMatchPos sep cs with _ | i
        · rfl
        · rw [hfmp] at h; simp at h
      rw [splitOnGo.eq_def]
      dsimp only
      rw [dif_neg (by intro hand; exact hp hand.2)]
      rw [ih hcs]

theorem firstMatchPos_some_split_head (sep : GoStr) (hsep : sep ≠ []) :
    ∀ s i, firstMatchPos sep s = some i → (splitOnGo sep s).headD [] = s.take i := by
  intro s
  induction s with
  | nil =>
    intro i h
    unfold firstMatchPos at h
    rw [if_neg (by simpa [List.isPrefixOf_iff_prefix] using hsep)] at h
    exact absurd h (by simp)
  | cons c cs ih =>
    intro i h
    unfold firstMatchPos at h
    by_cases hp : sep.isPrefixOf (c :: cs)
    · rw [if_pos hp] at h
      have hi : i = 0 := by simpa using h.symm
      subst hi
      rw [splitOnGo.eq_def]
      dsimp only
      rw [dif_pos ⟨hsep, hp⟩]
      simp
    · rw [if_neg hp] at h
      rcases hfmp : firstMatchPos sep cs with _ | j
      · rw [hfmp] at h; exact absurd h (by simp)
      · rw [hfmp] at h
        have hi : i = j + 1 := by simpa using h.symm
        subst hi
        rw [splitOnGo.eq_def]
        dsimp only
        rw [dif_neg (by intro hand; exact hp hand.2)]
        rcases hsplit : splitOnGo sep cs with _ | ⟨f, fs⟩
        · exact absurd hsplit (splitOnGo_ne_nil sep cs)
        · have := ih j hfmp
          rw [hsplit] at this
          simp only [List.headD_cons] at this
          simp [this]

theorem not_mem_firstMatchPos (c : Char) :
    ∀ s : GoStr, c ∉ s → firstMatchPos [c] s = none := by
  intro s
  induction s with
  | nil => intro _; rfl
  | cons d ds ih =>
    intro h
    unfold firstMatchPos
    have hcd : c ≠ d := fun he => h (he ▸ List.mem_cons_self d ds)
    have hpre : ¬ List.isPrefixOf [c] (d :: ds) = true := by
      rw [List.isPrefixOf_iff_prefix, List.cons_prefix_cons]
      intro hx
      exact hcd hx.1
    rw [if_neg hpre]
    rw [ih (fun hm => h (List.mem_cons_of_mem d hm))]
    rfl

theorem splitOnGo_single_not_mem {c : Char} {s : GoStr} (h : c ∉ s) :
    splitOnGo [c] s = [s] :=
  firstMatchPos_none_split [c] s (not_mem_firstMatchPos c s h)

theorem splitOnGo_single_append (c : Char) :
    ∀ a b : GoStr, c ∉ a → splitOnGo [c] (a ++ c :: b) = a :: splitOnGo [c] b := by
  intro a
  induction a with
  | nil =>
    intro b _
    rw [List.nil_append, splitOnGo.eq_def]
    dsimp only
    rw [dif_pos ⟨by simp, by simp [List.isPrefixOf_iff_prefix]⟩]
    simp
  | cons d ds ih =>
    intro b h
    have hcd : c ≠ d := fun he => h (he ▸ List.mem_cons_self d ds)
    rw [List.cons_append, splitOnGo.eq_def]
    dsimp only
    rw [dif_neg]
    · rw [ih b (fun hm => h (List.mem_cons_of_mem d hm))]
    · intro hand
      have h2 := hand.2
      rw [List.isPrefixOf_iff_prefix, List.cons_prefix_cons] at h2
      exact hcd h2.1

/-! ### internal/mount/parser.go -/

/-- `expandPath` from internal/mount/parser.go. `home` is the result of
`os.UserHomeDir` (`none` when it errors), `cwd` the working directory used
by `filepath.Abs` (`none` when `os.Getwd` errors inside `Abs`). Each Go
`return` inside a branch is modelled as a `some` result of that branch. -/
def expandPath (home cwd : Option GoStr) (path : GoStr) : GoStr :=
  let fromHome : Option GoStr :=
    if tildeSlash.isPrefixOf path then
      match home with
      | some h => some (goJoin h (path.drop 2))
      | none => none
    else none
  match fromHome with
  | some r => r
  | none =>
    let fromAbs : Option GoStr :=
      if ¬ goIsAbs path then
        match cwd with
        | some c => some (goJoin c path)
        | none => none
      else none
    match fromAbs with
    | some r => r
    | none => path

/-- A Docker bind mount, as built by `mount.ParseVolume` and `run.Run`
(`mount.Mount` with `Type: mount.TypeBind`). -/
structure GoMount where
  source : GoStr
  target : GoStr
  readOnly : Bool
deriving DecidableEq, Repr

/-- `ParseVolume` from internal/mount/parser.go. `pathExists` models
`os.Stat(source); err == nil`. -/
def ParseVolume (home cwd : Option GoStr) (pathExists : GoStr → Bool)
    (vol : GoStr) : Option GoMount :=
  let parts := splitOnGo [':'] vol
  if parts.length < 2 then none
  else
    let source := parts.headD []
    let target := parts.getD 1 []
    let readonly := parts.length == 3 && parts.getD 2 [] == roStr
    let source := expandPath home cwd source
    if pathExists source then
      some { source := source, target := target, readOnly := readonly }
    else none

/-! ### internal/git/discovery.go -/

/-- Result of `os.Stat`: the entry exists (with its directory bit), does
not exist, or the probe itself failed (permission denied, I/O error). -/
inductive StatRes where
  | found (isDir : Bool)
  | enoent
  | eacces
deriving DecidableEq, Repr

/-- `err == nil` after `os.Stat`. -/
def statOk : StatRes → Bool
  | .found _ => true
  | .enoent => false
  | .eacces => false

/-- The filesystem as seen through `os.Stat` and file reads, keyed by
component paths. `content p = none` models an `os.Open`/`io.ReadAll`
failure. -/
structure FS where
  stat : AbsPath → StatRes
  content : AbsPath → Option GoStr

/-- Errors surfaced by the embedded functions. -/
inductive GoErr where
  | noRepo
  | statFailed
  | readFailed
  | tokenizeFailed
  | openFailed
  | scriptNoImage
deriving DecidableEq, Repr

/-- `git.FindRoot` from internal/git/discovery.go: walk up from `startDir`
until a `.git` marker is found (`os.Stat` succeeding) or the filesystem
root is reached (`filepath.Dir dir == dir`, i.e. the empty component
list). The only error it returns is `no git repository found`. -/
def findRoot (fs : FS) (dir : AbsPath) : Except GoErr AbsPath :=
  if statOk (fs.stat (dir ++ [dotGit])) then .ok dir
  else
    match dir with
    | [] => .error .noRepo
    | x :: xs => findRoot fs (x :: xs).dropLast
termination_by dir.length
decreasing_by
  simp only [List.length_dropLast, List.length_cons]
  omega

/-- `git.FindRealGitDir` from internal/git/discovery.go. Returns the
rendered path of `<gitRoot>/.git` when the marker is a directory;
otherwise reads the marker file, finds the first `gitdir: ` line, trims
the pointer and strips a `/worktrees/...` suffix when present. -/
def findRealGitDir (fs : FS) (gitRoot : AbsPath) : Except GoErr GoStr :=
  let gitPathC := gitRoot ++ [dotGit]
  let gitPath := renderPath gitPathC
  match fs.stat gitPathC with
  | .enoent => .error .statFailed
  | .eacces => .error .statFailed
  | .found true => .ok gitPath
  | .found false =>
    match fs.content gitPathC with
    | none => .error .readFailed
    | some content =>
      let lines := splitOnGo ['\n'] content
      match lines.find? (fun l => gitdirSp.isPrefixOf l) with
      | none => .ok gitPath
      | some line =>
        let worktreeGitDir := trimGo (goTrimPrefix line gitdirColon)
        if goContains worktreeGitDir wtSep then
          .ok ((splitOnGo wtSep worktreeGitDir).headD [])
        else .ok worktreeGitDir

/-! ### internal/container/run/config.go -/

/-- `run.Config` from internal/container/run/config.go (the fields consumed
by `Run` and filled by flags or by `script.ParseFile`; output/logging
plumbing omitted). -/
structure Config where
  image : GoStr := []
  command : List GoStr := []
  entrypoint : List GoStr := []
  workingDir : GoStr := []
  environment : List GoStr := []
  volumes : List GoStr := []
  user : GoStr := []
  networkMode : GoStr := []
  interactive : Bool := false
  noGit : Bool := false
  privileged : Bool := false
  scriptPath : GoStr := []
  scriptArgs : List GoStr := []
deriving DecidableEq, Repr

/-! ### internal/container/run/run.go (src/unnamed/part_000) -/

/-- The launch specification handed to the execution engine: the
`container.Config` and `container.HostConfig` built by `run.Run` for
`ContainerCreate`. -/
structure LaunchSpec where
  image : GoStr
  cmd : List GoStr
  entrypoint : List GoStr
  workingDir : GoStr
  env : List GoStr
  user : GoStr
  tty : Bool
  attachStdin : Bool
  attachStdout : Bool
  attachStderr : Bool
  openStdin : Bool
  mounts : List GoMount
  autoRemove : Bool
  privileged : Bool
  networkMode : GoStr
deriving DecidableEq, Repr

/-- A bind mount of a path onto itself (`Source == Target`). -/
def selfMount (p : GoStr) : GoMount := { source := p, target := p, readOnly := false }

/-- The mount list built by `run.Run` (part_000 lines 70-106): the working
directory self-mount, then — unless `NoGit` — the git-root self-mount when
`FindRoot` succeeds with a root different from `pwd`, then the real-git-dir
mount when `FindRealGitDir` succeeds with a non-empty result different from
`<root>/.git`. Path equality on rendered strings coincides with component
equality under the path abstraction. -/
def computeMounts (fs : FS) (pwd : AbsPath) (noGit : Bool) : List GoMount :=
  let base := [selfMount (renderPath pwd)]
  if noGit then base
  else
    match findRoot fs pwd with
    | .error _ => base
    | .ok root =>
      if renderPath root = [] ∨ root = pwd then base
      else
        let withRoot := base ++ [selfMount (renderPath root)]
        match findRealGitDir fs root with
        | .error _ => withRoot
        | .ok realGitDir =>
          let gitDirPath := renderPath (root ++ [dotGit])
          if realGitDir = [] then withRoot
          else if realGitDir = gitDirPath then withRoot
          else withRoot ++ [{ source := realGitDir, target := gitDirPath, readOnly := false }]

/-- The pure core of `run.Run` (part_000 lines 70-168): the launch
specification passed to `ContainerCreate`, as a function of the
filesystem, the working directory and the configuration. Docker-client
creation and the create/start/wait engine phases are external. -/
def buildLaunchSpec (fs : FS) (pwd : AbsPath) (cfg : Config) : LaunchSpec :=
  let cmd := cfg.command ++ (if cfg.scriptPath ≠ [] then cfg.scriptArgs else [])
  { image := cfg.image
    cmd := cmd
    entrypoint := cfg.entrypoint
    workingDir := if cfg.workingDir = [] then renderPath pwd else cfg.workingDir
    env := cfg.environment
    user := cfg.user
    tty := cfg.interactive
    attachStdin := cfg.interactive
    attachStdout := true
    attachStderr := true
    openStdin := cfg.interactive
    mounts := computeMounts fs pwd cfg.noGit
    autoRemove := true
    privileged := cfg.privileged
    networkMode := cfg.networkMode }

/-! ### internal/script (src/unnamed/part_001) -/

/-- A value of the external UP document model (`up.Value`): a scalar
string, a sequence (`up.List`) or a keyed mapping (`up.Block`). The
mapping is carried as an association list; its iteration order stands in
for Go's unspecified map order. -/
inductive UpValue where
  | scalar (s : GoStr)
  | list (items : List UpValue)
  | block (entries : List (GoStr × UpValue))

/-- A top-level node of an UP document (`doc.Nodes` entry). -/
structure UpNode where
  key : GoStr
  value : UpValue

/-- An UP document as produced by the external tokenizer. -/
abbrev UpDoc := List UpNode

/-- `extractList` from internal/script parser: only sequence-shaped values
contribute, and only their string items. -/
def extractList : UpValue → List GoStr
  | .list items => items.filterMap fun v =>
      match v with
      | .scalar s => some s
      | _ => none
  | _ => []

/-- `extractEnvironment` from internal/script parser: a flat sequence of
strings, or a mapping synthesized into `KEY=VALUE` strings. -/
def extractEnvironment : UpValue → List GoStr
  | .list items => items.filterMap fun v =>
      match v with
      | .scalar s => some s
      | _ => none
  | .block entries => entries.filterMap fun kv =>
      match kv.2 with
      | .scalar s => some (kv.1 ++ '=' :: s)
      | _ => none
  | _ => []

/-- One iteration of the `switch node.Key` loop in `script.ParseFile`. -/
def applyNode (c : Config) (n : UpNode) : Config :=
  if n.key = "image".data then
    match n.value with
    | .scalar s => { c with image := s }
    | _ => c
  else if n.key = "command".data then
    { c with command := c.command ++ extractList n.value }
  else if n.key = "entrypoint".data then
    { c with entrypoint := c.entrypoint ++ extractList n.value }
  else if n.key = "workdir".data ∨ n.key = "working_dir".data then
    match n.value with
    | .scalar s => { c with workingDir := s }
    | _ => c
  else if n.key = "env".data ∨ n.key = "environment".data then
    { c with environment := c.environment ++ extractEnvironment n.value }
  else if n.key = "volume".data ∨ n.key = "volumes".data then
    { c with volumes := c.volumes ++ extractList n.value }
  else if n.key = "user".data then
    match n.value with
    | .scalar s => { c with user := s }
    | _ => c
  else if n.key = "interactive".data then
    match n.value with
    | .scalar s => { c with interactive := s = "true".data }
    | _ => c
  else if n.key = "privileged".data then
    match n.value with
    | .scalar s => { c with privileged := s = "true".data }
    | _ => c
  else if n.key = "network_mode".data then
    match n.value with
    | .scalar s => { c with networkMode := s }
    | _ => c
  else c

/-- The field-extraction part of `script.ParseFile`: fold the switch over
the document nodes starting from the zero config with empty lists, then
fail when no image was set. -/
def configFromDoc (doc : UpDoc) : Except GoErr Config :=
  let c := doc.foldl applyNode {}
  if c.image = [] then .error .scriptNoImage else .ok c

/-- Shebang stripping in `script.ParseFile`: drop the first line when it
starts with `#!`. -/
def stripShebang (content : GoStr) : GoStr :=
  let lines := splitOnGo ['\n'] content
  match lines with
  | [] => content
  | l0 :: rest =>
    if ("#!".data).isPrefixOf l0 then List.intercalate ['\n'] rest else content

/-- External effects used by `script.ParseFile`: reading the script file
(`os.Open` + `io.ReadAll`) and the external UP tokenizer
(`parser.ParseDocument`). -/
structure ScriptEnv where
  readFile : GoStr → Except GoErr GoStr
  tokenize : GoStr → Except GoErr UpDoc

/-- `script.ParseFile` (src/unnamed/part_001): read the file, strip a
shebang, tokenize, extract the recognized fields, and fail when the
script specifies no image. -/
def parseFileM (env : ScriptEnv) (path : GoStr) : Except GoErr Config := do
  let content ← env.readFile path
  let doc ← env.tokenize (stripShebang content)
  configFromDoc doc

/-! ### internal/app/commands/run action (src/internal/app/action.go lines 160-189) -/

/-- Outcome of the `run` command's `action`: either `app.Action` is invoked
with a config (which `run.Run` then turns into a launch spec), or the
command exits with the missing-image error before any engine interaction. -/
inductive ActionResult where
  | launch (cfg : Config)
  | exitNoImage
deriving DecidableEq, Repr

/-- `action` from the run command: when the first positional argument stats
as a regular file and parses as an UP script, launch with the script
config (script path recorded, remaining arguments as script args);
otherwise fall through to flag mode, appending all positional arguments to
the flag command, and fail when no image was given. `statFile` models
`os.Stat` on the raw first argument. -/
def actionM (statFile : GoStr → StatRes) (env : ScriptEnv)
    (args : List GoStr) (flagCfg : Config) : ActionResult :=
  let fromScript : Option Config :=
    match args with
    | [] => none
    | firstArg :: rest =>
      match statFile firstArg with
      | .found false =>
        match parseFileM env firstArg with
        | .ok sc => some { sc with scriptPath := firstArg, scriptArgs := rest }
        | .error _ => none
      | _ => none
  match fromScript with
  | some sc => .launch sc
  | none =>
    let cfg := { flagCfg with command := flagCfg.command ++ args }
    if cfg.image = [] then .exitNoImage else .launch cfg

/-! ### Helper lemmas -/

theorem tildeSlash_eq : tildeSlash = ['~', '/'] := rfl

/-- An absolute path passes through `expandPath` unchanged. -/
theorem expandPath_abs (home cwd : Option GoStr) (s : GoStr) (h : goIsAbs s = true) :
    expandPath home cwd s = s := by
  match s with
  | [] => simp [goIsAbs] at h
  | c :: cs =>
    have hc : c = '/' := by simpa [goIsAbs] using h
    subst hc
    have hpre : ¬ tildeSlash.isPrefixOf ('/' :: cs) = true := by
      rw [tildeSlash_eq, List.isPrefixOf_iff_prefix, List.cons_prefix_cons]
      rintro ⟨h1, -⟩
      exact absurd h1 (by decide)
    simp [expandPath, hpre, h]

/-- A `~/`-prefixed path is never absolute. -/
theorem goIsAbs_tilde (x : GoStr) : goIsAbs ('~' :: '/' :: x) = false := by
  simp [goIsAbs]

/-! ### Claim C2 -/

/-- C2, as stated, is false: when the home directory cannot be determined,
`expandPath` does not leave `~/x` unchanged — it falls through to
`filepath.Abs` and resolves the path against the current directory. At
`~/x` with working directory `/cwd` the result is `/cwd/~/x`, not `~/x`. -/
theorem c2_counterexample :
    expandPath none (some "/cwd".data) "~/x".data = "/cwd/~/x".data ∧
    expandPath none (some "/cwd".data) "~/x".data ≠ "~/x".data := by
  constructor
  · simp [expandPath, goIsAbs, tildeSlash, goJoin, goClean, splitOnGo, cleanStack,
      List.isPrefixOf, List.intercalate, List.intersperse]
  · intro h
    rw [show expandPath none (some "/cwd".data) "~/x".data = "/cwd/~/x".data from by
      simp [expandPath, goIsAbs, tildeSlash, goJoin, goClean, splitOnGo, cleanStack,
        List.isPrefixOf, List.intercalate, List.intersperse]] at h
    exact absurd h (by decide)

/-- C2 (amended): for paths `~/x`, expansion yields `Join(home, x)` (that
is, `<home>/x` for clean inputs) when the home directory is resolvable;
when it is not, the `~` is left unexpanded but the path still falls
through to relative-path resolution: it is resolved against the current
directory (yielding `<cwd>/~/x`), and is returned unchanged only when the
working directory is also unavailable. -/
theorem c2_amended (h c x : GoStr) (cwd : Option GoStr) :
    (x ≠ [] → h ≠ [] → goClean (h ++ '/' :: x) = h ++ '/' :: x →
      expandPath (some h) cwd ('~' :: '/' :: x) = h ++ '/' :: x) ∧
    (c ≠ [] → goClean (c ++ '/' :: '~' :: '/' :: x) = c ++ '/' :: '~' :: '/' :: x →
      expandPath none (some c) ('~' :: '/' :: x) = c ++ '/' :: '~' :: '/' :: x) ∧
    expandPath none none ('~' :: '/' :: x) = '~' :: '/' :: x := by
  have hpre : tildeSlash.isPrefixOf ('~' :: '/' :: x) = true := by
    rw [tildeSlash_eq, List.isPrefixOf_iff_prefix]
    exact ⟨x, rfl⟩
  refine ⟨fun hx hh hcl => ?_, fun hc hcl => ?_, ?_⟩
  · have hdrop : ('~' :: '/' :: x).drop 2 = x := rfl
    simp only [expandPath, hpre, if_true, hdrop]
    rw [goJoin, if_neg hh, if_neg hx, hcl]
  · simp only [expandPath, hpre, if_true, goIsAbs_tilde]
    rw [if_pos (by decide)]
    dsimp only
    rw [goJoin, if_neg hc, if_neg (by simp), hcl]
  · simp [expandPath, hpre, goIsAbs_tilde]

/-- Witness for C2 (amended): a resolvable home expands `~/cfg` to
`/home/u/cfg`; an unresolvable home with working directory `/cwd` turns
`~/cfg` into `/cwd/~/cfg`; with neither available the path is unchanged. -/
theorem c2_witness :
    expandPath (some "/home/u".data) (some "/w".data) ('~' :: '/' :: "cfg".data) =
      "/home/u".data ++ '/' :: "cfg".data ∧
    expandPath none (some "/cwd".data) ('~' :: '/' :: "cfg".data) =
      "/cwd".data ++ '/' :: '~' :: '/' :: "cfg".data ∧
    expandPath none none ('~' :: '/' :: "cfg".data) = '~' :: '/' :: "cfg".data := by
  obtain ⟨h1, h2, h3⟩ := c2_amended "/home/u".data "/cwd".data "cfg".data (some "/w".data)
  exact ⟨h1 (by decide) (by decide)
      (by simp [goClean, splitOnGo, cleanStack, List.isPrefixOf, List.intercalate,
            List.intersperse]),
    h2 (by decide)
      (by simp [goClean, splitOnGo, cleanStack, List.isPrefixOf, List.intercalate,
            List.intersperse]),
    h3⟩

/-! ### Claim C9 -/

/-- C9: a volume expression whose (expanded) source does not exist yields
no binding; an expression `s:t:ro` with `s` an existing absolute path
yields a read-only binding from `s` to `t`. -/
theorem c9_parse_volume (home cwd : Option GoStr) (pathExists : GoStr → Bool)
    (s t vol : GoStr) :
    (2 ≤ (splitOnGo [':'] vol).length →
      pathExists (expandPath home cwd ((splitOnGo [':'] vol).headD [])) = false →
      ParseVolume home cwd pathExists vol = none) ∧
    (':' ∉ s → ':' ∉ t → goIsAbs s = true → pathExists s = true →
      ParseVolume home cwd pathExists (s ++ ':' :: (t ++ ':' :: roStr)) =
        some { source := s, target := t, readOnly := true }) := by
  constructor
  · intro hlen hex
    unfold ParseVolume
    rw [if_neg (by omega)]
    simp only [hex]
    simp
  · intro hs ht habs hex
    have hsplit : splitOnGo [':'] (s ++ ':' :: (t ++ ':' :: roStr)) = [s, t, roStr] := by
      rw [splitOnGo_single_append ':' s (t ++ ':' :: roStr) hs,
        splitOnGo_single_append ':' t roStr ht,
        splitOnGo_single_not_mem (by decide : ':' ∉ roStr)]
    unfold ParseVolume
    rw [hsplit]
    simp only [List.length_cons, List.length_nil]
    rw [if_neg (by omega)]
    simp only [List.headD_cons, List.getD, List.getElem?_cons_succ, List.getElem?_cons_zero,
      Option.getD_some]
    rw [expandPath_abs home cwd s habs]
    simp [hex]

/-- Witness for C9: `relsrc:tgt` with nonexistent `relsrc` (no home, no
working directory) yields no binding; `/src:/tgt:ro` with `/src` existing
yields a read-only binding. -/
theorem c9_witness :
    ParseVolume none none (fun p => p == "/src".data) "relsrc:tgt".data = none ∧
    ParseVolume none none (fun p => p == "/src".data)
        ("/src".data ++ ':' :: ("/tgt".data ++ ':' :: roStr)) =
      some { source := "/src".data, target := "/tgt".data, readOnly := true } := by
  obtain ⟨h1, h2⟩ :=
    c9_parse_volume none none (fun p => p == "/src".data) "/src".data "/tgt".data "relsrc:tgt".data
  refine ⟨h1 ?_ ?_, h2 (by decide) (by decide) (by decide) (by decide)⟩
  · rw [show splitOnGo [':'] "relsrc:tgt".data = ["relsrc".data, "tgt".data] from by
      simp [splitOnGo, List.isPrefixOf]]
    decide
  · rw [show splitOnGo [':'] "relsrc:tgt".data = ["relsrc".data, "tgt".data] from by
      simp [splitOnGo, List.isPrefixOf]]
    simp only [List.headD_cons]
    rw [show expandPath none none "relsrc".data = "relsrc".data from by
      simp [expandPath, tildeSlash, goIsAbs, List.isPrefixOf]]
    decide

/-! ### Claims C3 and C7 -/

/-- A filesystem on which every stat fails with a permission error. -/
def fsAllEacces : FS := { stat := fun _ => .eacces, content := fun _ => none }

/-- A filesystem on which every stat reports the entry as absent. -/
def fsAllEnoent : FS := { stat := fun _ => .enoent, content := fun _ => none }

/-- C3, as stated, is false: a stat failure (permission denied) while
probing for the marker is not propagated as a failure distinct from
NotFound — `FindRoot` keeps walking and returns the very same
`no git repository found` outcome that an absent repository produces. -/
theorem c3_counterexample :
    findRoot fsAllEacces ["a".data] = .error .noRepo ∧
    findRoot fsAllEnoent ["a".data] = .error .noRepo := by
  constructor <;> simp [findRoot, fsAllEacces, fsAllEnoent, statOk]

/-- C3 (amended): `FindRoot` treats a stat error on the marker exactly
like an absent marker — its outcome depends only on whether each stat
succeeded, not on why it failed — and the only error it ever returns is
the NotFound outcome `no git repository found`. -/
theorem c3_amended (fsA fsB : FS) (dir : AbsPath)
    (hsame : ∀ p, statOk (fsA.stat p) = statOk (fsB.stat p)) :
    findRoot fsA dir = findRoot fsB dir ∧
    ∀ e, findRoot fsA dir = .error e → e = .noRepo := by
  have main : ∀ n : Nat, ∀ d : AbsPath, d.length ≤ n →
      findRoot fsA d = findRoot fsB d ∧
      ∀ e, findRoot fsA d = .error e → e = .noRepo := by
    intro n
    induction n with
    | zero =>
      intro d hlen
      have hd : d = [] := List.length_eq_zero.mp (Nat.le_zero.mp hlen)
      subst hd
      rw [findRoot.eq_def, findRoot.eq_def]
      by_cases hm : statOk (fsA.stat ([] ++ [dotGit])) = true
      · rw [if_pos hm, if_pos (by rw [← hsame]; exact hm)]
        exact ⟨rfl, fun e he => by exact absurd he (by simp)⟩
      · rw [if_neg hm, if_neg (by rw [← hsame]; exact hm)]
        exact ⟨rfl, fun e he => by simpa using he.symm⟩
    | succ n ih =>
      intro d hlen
      rw [findRoot.eq_def, findRoot.eq_def]
      by_cases hm : statOk (fsA.stat (d ++ [dotGit])) = true
      · rw [if_pos hm, if_pos (by rw [← hsame]; exact hm)]
        exact ⟨rfl, fun e he => by exact absurd he (by simp)⟩
      · rw [if_neg hm, if_neg (by rw [← hsame]; exact hm)]
        match d with
        | [] => exact ⟨rfl, fun e he => by simpa using he.symm⟩
        | c :: cs =>
          dsimp only
          exact ih (c :: cs).dropLast (by simpa using hlen)
  exact main dir.length dir (Nat.le_refl _)

/-- Witness for C3 (amended): on a tree where every stat is denied and a
tree where every entry is absent, discovery from `/a` produces the same
outcome. -/
theorem c3_witness :
    findRoot fsAllEacces ["a".data] = findRoot fsAllEnoent ["a".data] :=
  (c3_amended fsAllEacces fsAllEnoent ["a".data] (fun _ => rfl)).1

/-- C7: starting from a descendant `D` of a marked ancestor `A` with no
marker strictly between, `FindRoot` returns `A`; starting in a tree with
no marker anywhere up to the root, it returns the NotFound outcome. -/
theorem c7_locate (fs : FS) (A D : AbsPath) :
    (statOk (fs.stat (A ++ [dotGit])) = true → A <+: D →
      (∀ P : AbsPath, A <+: P → P <+: D → P ≠ A →
        statOk (fs.stat (P ++ [dotGit])) = false) →
      findRoot fs D = .ok A) ∧
    ((∀ P : AbsPath, P <+: D → statOk (fs.stat (P ++ [dotGit])) = false) →
      findRoot fs D = .error .noRepo) := by
  constructor
  · have main : ∀ n : Nat, ∀ d : AbsPath, d.length ≤ n →
        statOk (fs.stat (A ++ [dotGit])) = true → A <+: d →
        (∀ P : AbsPath, A <+: P → P <+: d → P ≠ A →
          statOk (fs.stat (P ++ [dotGit])) = false) →
        findRoot fs d = .ok A := by
      intro n
      induction n with
      | zero =>
        intro d hlen hA hpre _
        have hd : d = [] := List.length_eq_zero.mp (Nat.le_zero.mp hlen)
        subst hd
        have hA0 : A = [] := List.prefix_nil.mp hpre
        subst hA0
        rw [findRoot.eq_def, if_pos hA]
      | succ n ih =>
        intro d hlen hA hpre hbetween
        by_cases hdA : d = A
        · subst hdA
          rw [findRoot.eq_def, if_pos hA]
        · have hno : statOk (fs.stat (d ++ [dotGit])) = false :=
            hbetween d hpre (List.prefix_refl d) hdA
          rw [findRoot.eq_def, if_neg (by rw [hno]; exact Bool.false_ne_true)]
          obtain ⟨t, rfl⟩ := hpre
          have ht : t ≠ [] := fun h0 => hdA (by rw [h0, List.append_nil])
          match hAd : A ++ t with
          | [] =>
            exact absurd (List.append_eq_nil.mp hAd).2 ht
          | c :: cs =>
            dsimp only
            rw [← hAd]
            have hdrop : (A ++ t).dropLast = A ++ t.dropLast :=
              List.dropLast_append_of_ne_nil A ht
            rw [hdrop]
            apply ih (A ++ t.dropLast)
            · have : (A ++ t.dropLast).length < (A ++ t).length := by
                simp only [List.length_append]
                have : t.dropLast.length < t.length := by
                  cases t with
                  | nil => exact absurd rfl ht
                  | cons u us => simp
                omega
              have hlen2 : (A ++ t).length ≤ n + 1 := hlen
              omega
            · exact hA
            · exact ⟨t.dropLast, rfl⟩
            · intro P h1 h2 h3
              refine hbetween P h1 ?_ h3
              calc P <+: A ++ t.dropLast := h2
                _ <+: A ++ t := by
                  rw [← hdrop]
                  exact List.dropLast_prefix (A ++ t)
    exact fun hA hpre hb => main D.length D (Nat.le_refl _) hA hpre hb
  · have main : ∀ n : Nat, ∀ d : AbsPath, d.length ≤ n →
        (∀ P : AbsPath, P <+: d → statOk (fs.stat (P ++ [dotGit])) = false) →
        findRoot fs d = .error .noRepo := by
      intro n
      induction n with
      | zero =>
        intro d hlen hnone
        have hd : d = [] := List.length_eq_zero.mp (Nat.le_zero.mp hlen)
        subst hd
        rw [findRoot.eq_def,
          if_neg (by rw [hnone [] (List.prefix_refl _)]; exact Bool.false_ne_true)]
      | succ n ih =>
        intro d hlen hnone
        rw [findRoot.eq_def,
          if_neg (by rw [hnone d (List.prefix_refl _)]; exact Bool.false_ne_true)]
        match d with
        | [] => rfl
        | c :: cs =>
          dsimp only
          apply ih (c :: cs).dropLast (by simpa using hlen)
          intro P hP
          exact hnone P (hP.trans (List.dropLast_prefix (c :: cs)))
    exact fun hnone => main D.length D (Nat.le_refl _) hnone

/-- A filesystem whose only entry is a `.git` directory marker at `/a`. -/
def fsMarkerA : FS :=
  { stat := fun p => if p = ["a".data, dotGit] then .found true else .enoent,
    content := fun _ => none }

/-- Witness for C7: from `/a/b/c` with the only marker at `/a`, discovery
returns `/a`; on an entirely empty tree, discovery from `/x` reports the
NotFound outcome. -/
theorem c7_witness :
    findRoot fsMarkerA ["a".data, "b".data, "c".data] = .ok ["a".data] ∧
    findRoot fsAllEnoent ["x".data] = .error .noRepo := by
  constructor
  · apply (c7_locate fsMarkerA ["a".data] ["a".data, "b".data, "c".data]).1
    · decide
    · exact ⟨["b".data, "c".data], rfl⟩
    · intro P h1 h2 h3
      have hne : P ++ [dotGit] ≠ ["a".data, dotGit] := by
        intro he
        apply h3
        have : P ++ [dotGit] = ["a".data] ++ [dotGit] := he
        exact List.append_cancel_right this
      simp [fsMarkerA, hne, statOk]
  · exact (c7_locate fsAllEnoent [] ["x".data]).2 (fun P _ => rfl)

/-! ### Claim C6 -/

theorem gitdirSp_eq : gitdirSp = gitdirColon ++ [' '] := rfl

/-- C6: with the marker a regular file whose single line is `gitdir: <q>`
(`q` free of newlines and surrounding whitespace), the resolved metadata
directory is the prefix of `q` before the first `/worktrees/` occurrence
when there is one, and `q` unchanged when there is none. -/
theorem c6_worktree_resolution (fs : FS) (root : AbsPath) (q : GoStr)
    (hstat : fs.stat (root ++ [dotGit]) = .found false)
    (hcontent : fs.content (root ++ [dotGit]) = some (gitdirSp ++ q))
    (hline : splitOnGo ['\n'] (gitdirSp ++ q) = [gitdirSp ++ q])
    (htrim : trimGo (' ' :: q) = q) :
    (∀ i, firstMatchPos wtSep q = some i →
      findRealGitDir fs root = .ok (q.take i)) ∧
    (firstMatchPos wtSep q = none → findRealGitDir fs root = .ok q) := by
  have hfound : (splitOnGo ['\n'] (gitdirSp ++ q)).find?
      (fun l => gitdirSp.isPrefixOf l) = some (gitdirSp ++ q) := by
    rw [hline]
    have hp : gitdirSp.isPrefixOf (gitdirSp ++ q) = true := by
      rw [List.isPrefixOf_iff_prefix]
      exact List.prefix_append _ _
    simp [List.find?, hp]
  have hwt : trimGo (goTrimPrefix (gitdirSp ++ q) gitdirColon) = q := by
    have hsplit : gitdirSp ++ q = gitdirColon ++ ' ' :: q := by
      rw [gitdirSp_eq, List.append_assoc]
      rfl
    rw [hsplit]
    unfold goTrimPrefix
    rw [if_pos (by rw [List.isPrefixOf_iff_prefix]; exact List.prefix_append _ _)]
    rw [List.drop_left]
    exact htrim
  constructor
  · intro i hi
    unfold findRealGitDir
    dsimp only
    rw [hstat, hcontent]
    dsimp only
    rw [hfound]
    dsimp only
    rw [hwt]
    rw [if_pos (by unfold goContains; rw [hi]; rfl)]
    rw [firstMatchPos_some_split_head wtSep (by decide) q i hi]
  · intro hnone
    unfold findRealGitDir
    dsimp only
    rw [hstat, hcontent]
    dsimp only
    rw [hfound]
    dsimp only
    rw [hwt]
    rw [if_neg (by unfold goContains; rw [hnone]; simp)]

/-- A repository at `/repo` whose `.git` marker is a worktree pointer file
containing `gitdir: /store/worktrees/feature-x`. -/
def fsWorktree : FS :=
  { stat := fun p => if p = ["repo".data, dotGit] then .found false else .enoent,
    content := fun p =>
      if p = ["repo".data, dotGit] then some "gitdir: /store/worktrees/feature-x".data
      else none }

/-- A repository at `/repo` whose `.git` marker file contains
`gitdir: /store` with no `/worktrees/` segment. -/
def fsPlainGitdir : FS :=
  { stat := fun p => if p = ["repo".data, dotGit] then .found false else .enoent,
    content := fun p =>
      if p = ["repo".data, dotGit] then some "gitdir: /store".data else none }

/-- Witness for C6: `gitdir: /store/worktrees/feature-x` resolves to
`/store`, and `gitdir: /store` resolves to `/store` unchanged. -/
theorem c6_witness :
    findRealGitDir fsWorktree ["repo".data] = .ok "/store".data ∧
    findRealGitDir fsPlainGitdir ["repo".data] = .ok "/store".data := by
  constructor
  · have h := (c6_worktree_resolution fsWorktree ["repo".data]
        "/store/worktrees/feature-x".data (by decide) (by decide)
        (splitOnGo_single_not_mem (by decide)) (by decide)).1 6 (by decide)
    rw [h]
    exact congrArg Except.ok (by decide)
  · exact (c6_worktree_resolution fsPlainGitdir ["repo".data]
      "/store".data (by decide) (by decide)
      (splitOnGo_single_not_mem (by decide)) (by decide)).2 (by decide)

/-! ### Shape of the mount list -/

/-- The mount list built by `run.Run` has exactly one of three shapes: the
working-directory self-mount alone; followed by the repository-root
self-mount; followed additionally by the real-git-dir mount targeting
`<root>/.git`. -/
theorem computeMounts_shape (fs : FS) (pwd : AbsPath) (ng : Bool) :
    computeMounts fs pwd ng = [selfMount (renderPath pwd)] ∨
    (∃ root, findRoot fs pwd = .ok root ∧
      computeMounts fs pwd ng =
        [selfMount (renderPath pwd), selfMount (renderPath root)]) ∨
    (∃ root g, findRoot fs pwd = .ok root ∧ findRealGitDir fs root = .ok g ∧
      computeMounts fs pwd ng =
        [selfMount (renderPath pwd), selfMount (renderPath root),
         { source := g, target := renderPath (root ++ [dotGit]), readOnly := false }]) := by
  unfold computeMounts
  dsimp only
  by_cases hng : ng = true
  · rw [if_pos hng]
    exact Or.inl rfl
  · rw [if_neg hng]
    rcases hfr : findRoot fs pwd with e | root
    · exact Or.inl rfl
    · dsimp only
      by_cases hroot : renderPath root = [] ∨ root = pwd
      · rw [if_pos hroot]
        exact Or.inl rfl
      · rw [if_neg hroot]
        rcases hrg : findRealGitDir fs root with e2 | g
        · exact Or.inr (Or.inl ⟨root, rfl, rfl⟩)
        · dsimp only
          by_cases hg1 : g = []
          · rw [if_pos hg1]
            exact Or.inr (Or.inl ⟨root, rfl, rfl⟩)
          · rw [if_neg hg1]
            by_cases hg2 : g = renderPath (root ++ [dotGit])
            · rw [if_pos hg2]
              exact Or.inr (Or.inl ⟨root, rfl, rfl⟩)
            · rw [if_neg hg2]
              exact Or.inr (Or.inr ⟨root, g, rfl, hrg, rfl⟩)

theorem buildLaunchSpec_mounts (fs : FS) (pwd : AbsPath) (cfg : Config) :
    (buildLaunchSpec fs pwd cfg).mounts = computeMounts fs pwd cfg.noGit := rfl

/-! ### Claim C10 -/

/-- C10: the bindings handed to the execution engine come in a fixed
order — the working-directory self-mount first, the repository-root
self-mount (when present) second, and the metadata-directory binding
(when present) last. -/
theorem c10_mount_order (fs : FS) (pwd : AbsPath) (cfg : Config) :
    (buildLaunchSpec fs pwd cfg).mounts = [selfMount (renderPath pwd)] ∨
    (∃ root, findRoot fs pwd = .ok root ∧
      (buildLaunchSpec fs pwd cfg).mounts =
        [selfMount (renderPath pwd), selfMount (renderPath root)]) ∨
    (∃ root g, findRoot fs pwd = .ok root ∧ findRealGitDir fs root = .ok g ∧
      (buildLaunchSpec fs pwd cfg).mounts =
        [selfMount (renderPath pwd), selfMount (renderPath root),
         { source := g, target := renderPath (root ++ [dotGit]), readOnly := false }]) := by
  rw [buildLaunchSpec_mounts]
  exact computeMounts_shape fs pwd cfg.noGit

/-! ### Claim C1 -/

/-- C1 fails on the code: `run.Run` never consults `cfg.Volumes`, so a
user-supplied volume expression that `mount.ParseVolume` would resolve to
a valid binding still never appears in the mount list handed to
`ContainerCreate`. Whatever volumes are configured, the launch from `/w`
with no repository carries only the working-directory self-mount, even
though `/data:/tgt` resolves to a valid binding. -/
theorem c1_volumes_dropped (vols : List GoStr) :
    (buildLaunchSpec fsAllEnoent ["w".data]
        { image := "alpine".data, volumes := vols }).mounts =
      [selfMount (renderPath ["w".data])] ∧
    ParseVolume none none (fun _ => true) "/data:/tgt".data =
      some { source := "/data".data, target := "/tgt".data, readOnly := false } ∧
    { source := "/data".data, target := "/tgt".data, readOnly := false } ∉
      (buildLaunchSpec fsAllEnoent ["w".data]
        { image := "alpine".data, volumes := vols }).mounts := by
  have hmounts : (buildLaunchSpec fsAllEnoent ["w".data]
      { image := "alpine".data, volumes := vols }).mounts =
      [selfMount (renderPath ["w".data])] := by
    rw [buildLaunchSpec_mounts]
    simp [computeMounts, findRoot, fsAllEnoent, statOk]
  refine ⟨hmounts, ?_, ?_⟩
  · unfold ParseVolume
    rw [show splitOnGo [':'] "/data:/tgt".data = ["/data".data, "/tgt".data] from by
      simp [splitOnGo, List.isPrefixOf]]
    dsimp only
    rw [if_neg (by decide)]
    decide
  · rw [hmounts]
    decide

/-! ### Claim C4 -/

/-- A repository at `/r` whose `.git` marker file points at
`/worktrees/x`, so that the resolved metadata directory is the empty
string. -/
def fsEmptyGitdir : FS :=
  { stat := fun p => if p = ["r".data, dotGit] then .found false else .enoent,
    content := fun p =>
      if p = ["r".data, dotGit] then some "gitdir: /worktrees/x".data else none }

/-- C4, as stated, is false on one edge: when the resolved metadata
directory is the empty string (marker content `gitdir: /worktrees/x`), it
differs from `<root>/.git` and yet no third binding is added — `run.Run`
additionally requires the resolved directory to be non-empty. -/
theorem c4_counterexample :
    findRealGitDir fsEmptyGitdir ["r".data] = .ok [] ∧
    ([] : GoStr) ≠ renderPath (["r".data] ++ [dotGit]) ∧
    (buildLaunchSpec fsEmptyGitdir ["r".data, "sub".data] { image := "img".data }).mounts =
      [selfMount (renderPath ["r".data, "sub".data]), selfMount (renderPath ["r".data])] := by
  have hreal : findRealGitDir fsEmptyGitdir ["r".data] = .ok [] := by
    simp [findRealGitDir, fsEmptyGitdir, statOk, dotGit, splitOnGo, gitdirSp, gitdirColon,
      wtSep, goContains, firstMatchPos, trimGo, goTrimPrefix, isSpaceGo, List.isPrefixOf,
      renderPath, List.find?, List.intercalate, List.intersperse]
  refine ⟨hreal, by decide, ?_⟩
  rw [buildLaunchSpec_mounts]
  unfold computeMounts
  dsimp only
  rw [if_neg (by decide)]
  rw [show findRoot fsEmptyGitdir ["r".data, "sub".data] = .ok ["r".data] from by
    simp [findRoot, fsEmptyGitdir, statOk, dotGit]]
  dsimp only
  rw [if_neg (by decide)]
  rw [hreal]
  rfl

/-- C4 (amended): default bindings always start with the self-mount of
the working directory; when a repository root was discovered and differs
from the working directory, the root self-mount comes next; and whenever
the resolved metadata directory is non-empty and differs from
`<root>/.git`, a third binding maps the metadata directory to that
conventional path. -/
theorem c4_amended (fs : FS) (pwd root : AbsPath) (cfg : Config) (g : GoStr) :
    ((buildLaunchSpec fs pwd cfg).mounts.head? = some (selfMount (renderPath pwd))) ∧
    (cfg.noGit = false → findRoot fs pwd = .ok root → root ≠ pwd →
      (buildLaunchSpec fs pwd cfg).mounts.take 2 =
        [selfMount (renderPath pwd), selfMount (renderPath root)]) ∧
    (cfg.noGit = false → findRoot fs pwd = .ok root → root ≠ pwd →
      findRealGitDir fs root = .ok g → g ≠ [] → g ≠ renderPath (root ++ [dotGit]) →
      (buildLaunchSpec fs pwd cfg).mounts =
        [selfMount (renderPath pwd), selfMount (renderPath root),
         { source := g, target := renderPath (root ++ [dotGit]), readOnly := false }]) := by
  refine ⟨?_, ?_, ?_⟩
  · rcases computeMounts_shape fs pwd cfg.noGit with h | ⟨root1, _, h⟩ | ⟨root1, g1, _, _, h⟩ <;>
      rw [buildLaunchSpec_mounts, h] <;> rfl
  · intro hng hfr hne
    rw [buildLaunchSpec_mounts]
    unfold computeMounts
    dsimp only
    rw [if_neg (by rw [hng]; exact Bool.false_ne_true), hfr]
    dsimp only
    rw [if_neg (by
      rintro (h1 | h1)
      · exact absurd h1 (by simp [renderPath])
      · exact hne h1)]
    rcases hrg : findRealGitDir fs root with e2 | g1
    · rfl
    · dsimp only
      by_cases hg1 : g1 = []
      · rw [if_pos hg1]; rfl
      · rw [if_neg hg1]
        by_cases hg2 : g1 = renderPath (root ++ [dotGit])
        · rw [if_pos hg2]; rfl
        · rw [if_neg hg2]; rfl
  · intro hng hfr hne hrg hg1 hg2
    rw [buildLaunchSpec_mounts]
    unfold computeMounts
    dsimp only
    rw [if_neg (by rw [hng]; exact Bool.false_ne_true), hfr]
    dsimp only
    rw [if_neg (by
      rintro (h1 | h1)
      · exact absurd h1 (by simp [renderPath])
      · exact hne h1)]
    rw [hrg]
    dsimp only
    rw [if_neg hg1, if_neg hg2]
    rfl

/-- Witness for C4 (amended): from `/repo/sub` over a worktree pointer
`gitdir: /store/worktrees/feature-x` at `/repo/.git`, the launch carries
exactly the three bindings in order, the last mapping `/store` onto
`/repo/.git`. -/
theorem c4_witness :
    (buildLaunchSpec fsWorktree ["repo".data, "sub".data] { image := "img".data }).mounts =
      [selfMount (renderPath ["repo".data, "sub".data]),
       selfMount (renderPath ["repo".data]),
       { source := "/store".data, target := renderPath (["repo".data] ++ [dotGit]),
         readOnly := false }] := by
  apply (c4_amended fsWorktree ["repo".data, "sub".data] ["repo".data]
      { image := "img".data } "/store".data).2.2
  · rfl
  · simp [findRoot, fsWorktree, statOk, dotGit]
  · decide
  · simp [findRealGitDir, fsWorktree, statOk, dotGit, splitOnGo, gitdirSp, gitdirColon,
      wtSep, goContains, firstMatchPos, trimGo, goTrimPrefix, isSpaceGo, List.isPrefixOf,
      renderPath, List.find?, List.intercalate, List.intersperse]
  · decide
  · decide

/-! ### Claims C5 and C8 -/

/-- The config produced by the field-extraction fold always carries a
non-empty image when extraction succeeds. -/
theorem configFromDoc_image (doc : UpDoc) (c : Config)
    (h : configFromDoc doc = .ok c) : c.image ≠ [] := by
  unfold configFromDoc at h
  by_cases hi : (doc.foldl applyNode {}).image = []
  · rw [if_pos hi] at h
    exact absurd h (by simp)
  · rw [if_neg hi] at h
    have : doc.foldl applyNode {} = c := by
      simpa using h
    rw [← this]
    exact hi

/-- A successfully parsed script config always carries a non-empty
image. -/
theorem parseFileM_image (env : ScriptEnv) (path : GoStr) (sc : Config)
    (h : parseFileM env path = .ok sc) : sc.image ≠ [] := by
  unfold parseFileM at h
  rcases hrf : env.readFile path with e | content
  · rw [hrf] at h
    exact absurd (show (Except.error e : Except GoErr Config) = .ok sc from h) (by simp)
  · rw [hrf] at h
    have h2 : (do
        let doc ← env.tokenize (stripShebang content)
        configFromDoc doc : Except GoErr Config) = .ok sc := h
    rcases htk : env.tokenize (stripShebang content) with e2 | doc
    · rw [htk] at h2
      exact absurd (show (Except.error e2 : Except GoErr Config) = .ok sc from h2) (by simp)
    · rw [htk] at h2
      exact configFromDoc_image doc sc h2

/-- The flag-mode tail of `action` never launches with an empty image. -/
theorem actionM_flag_branch (flagCfg cfg : Config) (args : List GoStr)
    (h : (if ({ flagCfg with command := flagCfg.command ++ args } : Config).image = []
        then ActionResult.exitNoImage
        else .launch { flagCfg with command := flagCfg.command ++ args }) = .launch cfg) :
    cfg.image ≠ [] := by
  by_cases hi : ({ flagCfg with command := flagCfg.command ++ args } : Config).image = []
  · rw [if_pos hi] at h
    exact absurd h (by simp)
  · rw [if_neg hi] at h
    have : ({ flagCfg with command := flagCfg.command ++ args } : Config) = cfg := by
      simpa using h
    rw [← this]
    exact hi

/-- C8: whenever `action` hands a configuration to the launcher — from a
parsed script or from flags — its image is non-empty; an empty merged
image always stops at validation (`exitNoImage` or script parse failure)
before any engine interaction. -/
theorem c8_empty_image (statFile : GoStr → StatRes) (env : ScriptEnv)
    (args : List GoStr) (flagCfg cfg : Config)
    (h : actionM statFile env args flagCfg = .launch cfg) :
    cfg.image ≠ [] := by
  unfold actionM at h
  rcases args with _ | ⟨a0, rest⟩
  · dsimp only at h
    exact actionM_flag_branch flagCfg cfg [] h
  · dsimp only at h
    rcases hst : statFile a0 with b | _ | _
    · rcases b with _ | _
      · rw [hst] at h
        dsimp only at h
        rcases hpf : parseFileM env a0 with e | sc
        · rw [hpf] at h
          dsimp only at h
          exact actionM_flag_branch flagCfg cfg (a0 :: rest) h
        · rw [hpf] at h
          dsimp only at h
          have hc : ({ sc with scriptPath := a0, scriptArgs := rest } : Config) = cfg := by
            simpa using h
          rw [← hc]
          exact parseFileM_image env a0 sc hpf
      · rw [hst] at h
        dsimp only at h
        exact actionM_flag_branch flagCfg cfg (a0 :: rest) h
    · rw [hst] at h
      dsimp only at h
      exact actionM_flag_branch flagCfg cfg (a0 :: rest) h
    · rw [hst] at h
      dsimp only at h
      exact actionM_flag_branch flagCfg cfg (a0 :: rest) h

/-- A script environment in which every read and every tokenization
fails. -/
def envFailing : ScriptEnv :=
  { readFile := fun _ => .error .openFailed,
    tokenize := fun _ => .error .tokenizeFailed }

/-- Witness for C8: a flag-mode launch with image `alpine` goes through,
and the theorem certifies its image is non-empty; with an empty flag
image the same invocation exits instead of launching. -/
theorem c8_witness :
    ({ image := "alpine".data } : Config).image ≠ [] ∧
    actionM (fun _ => .enoent) envFailing [] ({} : Config) = .exitNoImage := by
  constructor
  · exact c8_empty_image (fun _ => .enoent) envFailing [] { image := "alpine".data }
      { image := "alpine".data } (by decide)
  · decide

/-- C5: when the first positional argument stats as a regular file and
parses as an UP script, the launched configuration is the script's (with
the script path and the remaining positional arguments recorded),
independent of every flag-sourced field, and the command of the built
launch spec is the script's command with the remaining positional
arguments appended in order. -/
theorem c5_script_precedence (statFile : GoStr → StatRes) (env : ScriptEnv)
    (fs : FS) (pwd : AbsPath) (a0 : GoStr) (rest : List GoStr)
    (flagA flagB : Config) (sc : Config)
    (ha0 : a0 ≠ [])
    (hstat : statFile a0 = .found false)
    (hparse : parseFileM env a0 = .ok sc) :
    actionM statFile env (a0 :: rest) flagA =
      .launch { sc with scriptPath := a0, scriptArgs := rest } ∧
    actionM statFile env (a0 :: rest) flagA = actionM statFile env (a0 :: rest) flagB ∧
    (buildLaunchSpec fs pwd { sc with scriptPath := a0, scriptArgs := rest }).cmd =
      sc.command ++ rest := by
  have hlaunch : ∀ flag : Config, actionM statFile env (a0 :: rest) flag =
      .launch { sc with scriptPath := a0, scriptArgs := rest } := by
    intro flag
    unfold actionM
    dsimp only
    rw [hstat]
    dsimp only
    rw [hparse]
  refine ⟨hlaunch flagA, (hlaunch flagA).trans (hlaunch flagB).symm, ?_⟩
  unfold buildLaunchSpec
  dsimp only
  rw [if_pos ha0]

/-- The concrete script document `image alpine` + `command [echo hi]`. -/
def docEchoHi : UpDoc :=
  [{ key := "image".data, value := .scalar "alpine".data },
   { key := "command".data, value := .list [.scalar "echo".data, .scalar "hi".data] }]

/-- A script environment serving `job.up`, whose content the external
tokenizer turns into `docEchoHi`. -/
def envJob : ScriptEnv :=
  { readFile := fun p =>
      if p = "job.up".data then .ok "body".data else .error .openFailed,
    tokenize := fun _ => .ok docEchoHi }

/-- The config extracted from `docEchoHi`. -/
def scEchoHi : Config := { image := "alpine".data, command := ["echo".data, "hi".data] }

/-- Witness for C5: invoking `job.up arg1` with junk flag configuration
launches the script config with `arg1` as script argument, and the built
command is `echo hi arg1`. -/
theorem c5_witness :
    actionM (fun p => if p = "job.up".data then .found false else .enoent) envJob
        ["job.up".data, "arg1".data]
        { image := "junk".data, command := ["bad".data] } =
      .launch { scEchoHi with scriptPath := "job.up".data, scriptArgs := ["arg1".data] } ∧
    (buildLaunchSpec fsAllEnoent ["w".data]
        { scEchoHi with scriptPath := "job.up".data, scriptArgs := ["arg1".data] }).cmd =
      scEchoHi.command ++ ["arg1".data] := by
  have hparse : parseFileM envJob "job.up".data = .ok scEchoHi := rfl
  have h := c5_script_precedence
    (fun p => if p = "job.up".data then .found false else .enoent) envJob
    fsAllEnoent ["w".data] "job.up".data ["arg1".data]
    { image := "junk".data, command := ["bad".data] } {} scEchoHi
    (by decide) (by decide) hparse
  exact ⟨h.1, h.2.2⟩

end VSL
